import Mathlib

/-
Verification of the Var2Stat configuration synthesis and resolution logic.

The development shallowly embeds the two Python modules `dump_config.py` and
`generate_fonts.py`. Python dicts are modelled as association lists whose
lookup returns the first matching entry; numeric axis coordinates are
modelled as rationals; fallible external operations (font instantiation,
file saving) are modelled as `Except`-valued parameters.
-/

namespace Var2Stat

/-- Axis tag, e.g. "wght". -/
abbrev Tag := String

/-- A coordinate mapping (Python dict from axis tag to number). -/
abbrev Coords := List (Tag × Rat)

/-- The factored global axes mapping: a tag maps to a scalar or to the
unset marker (Python `None`), modelled as `Option Rat`. -/
abbrev GlobalAxes := List (Tag × Option Rat)

/-- Python `int(x)` truncates toward zero: floor for nonnegative values,
ceiling for negative ones. -/
def truncInt (q : Rat) : Int :=
  if 0 ≤ q then q.floor else q.ceil

/-- The canonical weight table of `dump_config.extract_font_info`
(`weight_names`), in its Python insertion order. -/
def weight_names : List (Rat × String) :=
  [(100, "Thin"), (200, "ExtraLight"), (300, "Light"), (400, "Regular"),
   (500, "Medium"), (600, "SemiBold"), (700, "Bold"), (800, "ExtraBold"),
   (900, "Black")]

/-- Python `abs` on a rational value. -/
def ratAbs (q : Rat) : Rat :=
  if q < 0 then -q else q

/-- Python `min(iterable, key=f)` over a nonempty list `a :: xs`: scans in
order and replaces the current best only on a strictly smaller key, so the
first minimizer wins ties. -/
def pymin (f : Rat → Rat) (a : Rat) (xs : List Rat) : Rat :=
  xs.foldl (fun best c => if f c < f best then c else best) a

/-- The weight-name inference of `dump_config.extract_font_info`
(lines 56-66): exact canonical weight gives its label; otherwise the label
of the nearest canonical weight followed by the truncated integer value;
without a `wght` coordinate, `Instance<i+1>` for 0-based enumeration
index `i`. -/
def instance_name (coordinates : Coords) (i : Nat) : String :=
  match coordinates.lookup "wght" with
  | some weight_value =>
    match weight_names.lookup weight_value with
    | some nm => nm
    | none =>
      let closest := pymin (fun x => ratAbs (x - weight_value)) 100
        [200, 300, 400, 500, 600, 700, 800, 900]
      ((weight_names.lookup closest).getD "") ++ toString (truncInt weight_value)
  | none => "Instance" ++ toString (i + 1)

/-- One record of the name table. The `string` field holds the decoded
text; the UTF-16-BE byte encoding performed by the Python code is a
representation detail outside the model. -/
structure NameRecord where
  nameID : Nat
  platformID : Nat
  platEncID : Nat
  string : String
deriving DecidableEq

/-- The parts of a TTFont object that the two modules touch. Table fields
the code never writes are collected in the `Rest` fields and in
`otherTables`, so frame properties can be stated. -/
structure Font where
  hasFvar : Bool
  fvarAxes : Coords
  hasNameTable : Bool
  nameRecords : List NameRecord
  hasOS2 : Bool
  usWeightClass : Int
  os2Rest : Int
  hasHead : Bool
  macStyle : Nat
  headRest : Int
  otherTables : List (String × Int)
deriving DecidableEq

/-- The family-name scan shared by both modules: first name record with
nameID 1, platformID 3, platEncID 1. -/
def findFamilyName (records : List NameRecord) : Option String :=
  (records.find? fun r =>
    r.nameID == 1 && r.platformID == 3 && r.platEncID == 1).map (·.string)

/-- The family-name fallback of `dump_config.extract_font_info`
(lines 26-33): when the scan finds nothing, or finds a falsy (empty)
string, the font file path stem is used instead. -/
def dump_font_name (records : List NameRecord) (stem : String) : String :=
  match findFamilyName records with
  | some s => if s = "" then stem else s
  | none => stem

/-- The per-axis factoring scan of `dump_config.create_config_structure`
(lines 88-92): coordinate values of every variant that carries the tag. -/
def axis_values (variants : List (String × Coords)) (t : Tag) : List Rat :=
  variants.filterMap fun nv => nv.2.lookup t

/-- The factored value for one axis tag
(`create_config_structure` lines 94-98): the common value when every
carrying variant agrees, otherwise `None`. -/
def global_value (variants : List (String × Coords)) (t : Tag) : Option Rat :=
  match axis_values variants t with
  | [] => none
  | v :: rest => if (v :: rest).all (fun x => x == v) then some v else none

/-- Global-axis factoring (`create_config_structure` lines 86-98): one
entry per axis tag of `axes_defaults`. -/
def global_axes_of (axes_defaults : Coords) (variants : List (String × Coords)) :
    GlobalAxes :=
  axes_defaults.map fun ad => (ad.1, global_value variants ad.1)

/-- The sparse per-variant override (`create_config_structure`
lines 103-107): keep an axis entry only when `global_axes.get(axis_tag)`
differs from the value (a tag absent from the global mapping and the
unset marker both read back as Python `None`, hence the `Option.join`). -/
def optimize_variant (gaxes : GlobalAxes) (variant_axes : Coords) : Coords :=
  variant_axes.filter fun tv => decide ((gaxes.lookup tv.1).join ≠ some tv.2)

/-- The whole `variants` mapping of the configuration document
(`create_config_structure` lines 101-108). -/
def optimized_variants (gaxes : GlobalAxes) (variants : List (String × Coords)) :
    List (String × Coords) :=
  variants.map fun nv => (nv.1, optimize_variant gaxes nv.2)

/-- The configuration document built by `create_config_structure`. -/
structure ConfigDoc where
  file : String
  font_name : String
  axes : GlobalAxes
  variants : List (String × Coords)
deriving DecidableEq

/-- `dump_config.create_config_structure` (lines 81-116). -/
def create_config_structure (font_path font_name : String)
    (axes_defaults : Coords) (variants : List (String × Coords)) : ConfigDoc :=
  let gaxes := global_axes_of axes_defaults variants
  { file := font_path
    font_name := font_name
    axes := gaxes
    variants := optimized_variants gaxes variants }

/-- The effect of Python `dict.update` on one already-present key: the
override value when the override carries the key, else the old value. -/
def merge_value (variant_config : Coords) (k : Tag) (w : Option Rat) :
    Option Rat :=
  match variant_config.lookup k with
  | some v => some v
  | none => w

/-- Python `dict.update`: existing keys keep their position and receive the
new value, keys only in the update are appended in their own order
(`generate_fonts.generate_variant` lines 120-121). Override values are
plain numbers, so they enter the merged mapping as `some`. -/
def dict_update (gaxes : GlobalAxes) (variant_config : Coords) : GlobalAxes :=
  (gaxes.map fun kv => (kv.1, merge_value variant_config kv.1 kv.2)) ++
  ((variant_config.filter fun kv => (gaxes.lookup kv.1).isNone).map
    fun kv => (kv.1, some kv.2))

/-- The resolution comprehension of `generate_fonts.generate_variant`
(lines 124-128): keep only axes the font defines; an unset value falls
back to the font default. -/
def resolved_axes (merged_axes : GlobalAxes) (font_defaults : Coords) : Coords :=
  merged_axes.filterMap fun kv =>
    match font_defaults.lookup kv.1 with
    | none => none
    | some d =>
      match kv.2 with
      | none => some (kv.1, d)
      | some v => some (kv.1, v)

/-- The whole axis resolution of one variant: merge the global axes with
the override, then resolve against the font defaults. -/
def resolve_axes (gaxes : GlobalAxes) (variant_config : Coords)
    (font_defaults : Coords) : Coords :=
  resolved_axes (dict_update gaxes variant_config) font_defaults

/-- Clears bit 0 of a natural number, the effect of the Python
`macStyle &= ~0x01` on a nonnegative integer. -/
def clearBit0 (m : Nat) : Nat := 2 * (m / 2)

/-- The per-record update of `generate_fonts.update_font_names`
(lines 60-75). -/
def update_record (font_name variant_name : String) (r : NameRecord) :
    NameRecord :=
  if r.platformID = 3 ∧ r.platEncID = 1 then
    if r.nameID = 1 then { r with string := font_name }
    else if r.nameID = 2 then { r with string := variant_name }
    else if r.nameID = 4 then
      { r with string :=
          if variant_name = "Regular" then font_name
          else font_name ++ " " ++ variant_name }
    else if r.nameID = 6 then
      { r with string := (font_name.replace " " "") ++ "-" ++ variant_name }
    else r
  else r

/-- `generate_fonts.update_font_names` (lines 53-86): rewrite the four
Windows name records, set the OS/2 weight class to the truncated weight,
and set or clear the bold bit of head.macStyle. -/
def update_font_names (font : Font) (font_name variant_name : String)
    (axes : Coords) : Font :=
  let weight_value := (axes.lookup "wght").getD 400
  let f1 := { font with
    nameRecords := font.nameRecords.map (update_record font_name variant_name) }
  let f2 :=
    if f1.hasOS2 then { f1 with usWeightClass := truncInt weight_value } else f1
  if f2.hasHead then
    if weight_value ≥ 700 then { f2 with macStyle := f2.macStyle ||| 1 }
    else { f2 with macStyle := clearBit0 f2.macStyle }
  else f2

/-- The table names deleted by `generate_fonts.remove_variation_tables`. -/
def variation_tables : List String :=
  ["fvar", "avar", "gvar", "cvar", "HVAR", "VVAR", "MVAR", "STAT"]

/-- `generate_fonts.remove_variation_tables` (lines 44-50). -/
def remove_variation_tables (font : Font) : Font :=
  { font with
    hasFvar := false
    otherTables :=
      font.otherTables.filter fun kv => !(variation_tables.contains kv.1) }

/-- `generate_fonts.extract_font_info` (lines 89-105): axis defaults and
the declared family name, or a precondition error. -/
def extract_font_info_gen (font : Font) : Except String (Coords × String) :=
  if !font.hasFvar then
    .error "Not a variable font (missing fvar table)"
  else if !font.hasNameTable then
    .error "Font missing name table"
  else
    match (font.nameRecords.find? fun r =>
        r.nameID == 1 && r.platformID == 3 && r.platEncID == 1) with
    | some r => .ok (font.fvarAxes, r.string)
    | none => .error "Could not extract font family name from font file"

/-- The body of the `try` block of `generate_fonts.generate_variant`
(lines 119-143). The external instantiation and save capabilities are
parameters that may fail with an exception, modelled as `Except`. -/
def generate_variant_body (instantiateFn : Coords → Except String Font)
    (saveFn : Font → Except String Unit) (font_name variant_name : String)
    (variant_config : Coords) (gaxes : GlobalAxes) (font_defaults : Coords) :
    Except String Bool := do
  let raxes := resolve_axes gaxes variant_config font_defaults
  let static_font ← instantiateFn raxes
  let stripped := remove_variation_tables static_font
  let renamed := update_font_names stripped font_name variant_name raxes
  saveFn renamed
  pure true

/-- `generate_fonts.generate_variant` (lines 108-147): any exception inside
the body is caught and turned into `false`. -/
def generate_variant (instantiateFn : Coords → Except String Font)
    (saveFn : Font → Except String Unit) (font_name variant_name : String)
    (variant_config : Coords) (gaxes : GlobalAxes) (font_defaults : Coords) :
    Bool :=
  match generate_variant_body instantiateFn saveFn font_name variant_name
      variant_config gaxes font_defaults with
  | .ok b => b
  | .error _ => false

/-- The per-variant loop of `generate_fonts.generate_from_config`
(lines 185-196), accumulating the success count in the `Except` monad so
an uncaught per-variant exception would surface in the result type. -/
def run_variants (instantiateFn : String → Coords → Except String Font)
    (saveFn : String → Font → Except String Unit) (font_name : String)
    (gaxes : GlobalAxes) (font_defaults : Coords) :
    List (String × Coords) → Except String Nat
  | [] => pure 0
  | (variant_name, variant_config) :: rest => do
    let ok := generate_variant (instantiateFn variant_name)
      (saveFn variant_name) font_name variant_name variant_config gaxes
      font_defaults
    let n ← run_variants instantiateFn saveFn font_name gaxes font_defaults rest
    pure (if ok then n + 1 else n)

/-- The summary of `generate_fonts.generate_from_config` (line 198):
success count over total variant count. -/
def generate_from_config_summary
    (instantiateFn : String → Coords → Except String Font)
    (saveFn : String → Font → Except String Unit) (font_name : String)
    (gaxes : GlobalAxes) (font_defaults : Coords)
    (variants : List (String × Coords)) : Except String (Nat × Nat) := do
  let n ← run_variants instantiateFn saveFn font_name gaxes font_defaults
    variants
  pure (n, variants.length)

/-- A sample font used to exercise the naming update on concrete data. -/
def sampleFont : Font :=
  { hasFvar := true
    fvarAxes := [("wght", 400)]
    hasNameTable := true
    nameRecords :=
      [{ nameID := 1, platformID := 3, platEncID := 1, string := "Old Name" },
       { nameID := 2, platformID := 3, platEncID := 1, string := "Regular" },
       { nameID := 4, platformID := 3, platEncID := 1, string := "Old Name" },
       { nameID := 6, platformID := 3, platEncID := 1,
         string := "OldName-Regular" },
       { nameID := 1, platformID := 1, platEncID := 0, string := "Mac Name" }]
    hasOS2 := true
    usWeightClass := 400
    os2Rest := 7
    hasHead := true
    macStyle := 2
    headRest := 9
    otherTables := [("glyf", 3)] }

/-- A variable font whose name table has no Windows family-name record. -/
def namelessFont : Font :=
  { hasFvar := true
    fvarAxes := [("wght", 400)]
    hasNameTable := true
    nameRecords :=
      [{ nameID := 2, platformID := 1, platEncID := 0, string := "Regular" }]
    hasOS2 := false
    usWeightClass := 400
    os2Rest := 0
    hasHead := false
    macStyle := 0
    headRest := 0
    otherTables := [] }

/-! Association-list lookup lemmas. Python dicts are modelled as
association lists; `List.lookup` returns the first matching entry. -/

theorem lookup_mapVal {α β : Type} (f : Tag → α → β) (l : List (Tag × α))
    (t : Tag) :
    ((l.map fun kv => (kv.1, f kv.1 kv.2)).lookup t) = (l.lookup t).map (f t) := by
  induction l with
  | nil => rfl
  | cons a l ih =>
    simp only [List.map_cons, List.lookup]
    cases h : t == a.1 with
    | false => simpa using ih
    | true =>
      rw [beq_iff_eq] at h
      subst h
      simp

theorem lookup_append {κ α : Type} [BEq κ] [LawfulBEq κ] (l₁ l₂ : List (κ × α)) (t : κ) :
    (l₁ ++ l₂).lookup t = ((l₁.lookup t).or (l₂.lookup t)) := by
  induction l₁ with
  | nil => simp [Option.or]
  | cons a l ih =>
    simp only [List.cons_append, List.lookup]
    cases h : t == a.1 with
    | false => simpa using ih
    | true => simp [Option.or]

theorem lookup_filter_key {κ α : Type} [BEq κ] [LawfulBEq κ] (p : κ → Bool)
    (l : List (κ × α)) (t : κ) :
    ((l.filter fun kv => p kv.1).lookup t) = if p t then l.lookup t else none := by
  induction l with
  | nil => simp
  | cons a l ih =>
    obtain ⟨k, w⟩ := a
    by_cases ht : t = k
    · subst ht
      cases hp : p t with
      | false => simp [List.filter_cons, hp, ih]
      | true => simp [List.filter_cons, hp, List.lookup]
    · have hbe : (t == k) = false := beq_eq_false_iff_ne.mpr ht
      cases hp : p k with
      | false => simp [List.filter_cons, hp, List.lookup, hbe, ih]
      | true => simp [List.filter_cons, hp, List.lookup, hbe, ih]

theorem lookup_filter_of_true {κ α : Type} [BEq κ] [LawfulBEq κ]
    (p : κ × α → Bool)
    (l : List (κ × α)) (t : κ) (v : α) (h : l.lookup t = some v)
    (hp : p (t, v) = true) : (l.filter p).lookup t = some v := by
  induction l with
  | nil => simp at h
  | cons a l ih =>
    obtain ⟨k, w⟩ := a
    by_cases ht : t = k
    · subst ht
      rw [List.lookup_cons_self] at h
      obtain rfl : w = v := by simpa using h
      simp [List.filter_cons, hp, List.lookup]
    · have hbe : (t == k) = false := beq_eq_false_iff_ne.mpr ht
      simp only [List.lookup, hbe] at h
      cases hpa : p (k, w) with
      | false => simp [List.filter_cons, hpa, ih h]
      | true => simp [List.filter_cons, hpa, List.lookup, hbe, ih h]

theorem lookup_filter_of_false {κ α : Type} [BEq κ] [LawfulBEq κ]
    (p : κ × α → Bool)
    (l : List (κ × α)) (t : κ) (h : ∀ v, (t, v) ∈ l → p (t, v) = false) :
    (l.filter p).lookup t = none := by
  induction l with
  | nil => simp
  | cons a l ih =>
    obtain ⟨k, w⟩ := a
    have ihl : (l.filter p).lookup t = none :=
      ih fun v hv => h v (List.mem_cons_of_mem _ hv)
    by_cases ht : t = k
    · subst ht
      have hpw : p (t, w) = false := h w (List.mem_cons_self _ _)
      simp [List.filter_cons, hpw, ihl]
    · have hbe : (t == k) = false := beq_eq_false_iff_ne.mpr ht
      cases hpa : p (k, w) with
      | false => simp [List.filter_cons, hpa, ihl]
      | true => simp [List.filter_cons, hpa, List.lookup, hbe, ihl]

theorem lookup_isSome_iff {κ α : Type} [BEq κ] [LawfulBEq κ]
    (l : List (κ × α)) (t : κ) :
    (l.lookup t).isSome ↔ t ∈ l.map Prod.fst := by
  induction l with
  | nil => simp
  | cons a l ih =>
    simp only [List.lookup, List.map_cons, List.mem_cons]
    cases h : t == a.1 with
    | false =>
      rw [beq_eq_false_iff_ne] at h
      simp [h, ih]
    | true =>
      rw [beq_iff_eq] at h
      simp [h]

theorem mem_of_lookup {κ α : Type} [BEq κ] [LawfulBEq κ] {l : List (κ × α)}
    {t : κ} {v : α}
    (h : l.lookup t = some v) : (t, v) ∈ l := by
  induction l with
  | nil => simp at h
  | cons a l ih =>
    simp only [List.lookup] at h
    cases ht : t == a.1 with
    | false =>
      rw [ht] at h
      exact List.mem_cons_of_mem _ (ih h)
    | true =>
      rw [ht] at h
      simp only [Option.some.injEq] at h
      rw [beq_iff_eq] at ht
      subst ht
      cases a
      simp_all

theorem lookup_of_mem_nodup {κ α : Type} [BEq κ] [LawfulBEq κ]
    {l : List (κ × α)}
    (hnd : (l.map Prod.fst).Nodup) {t : κ} {v : α} (h : (t, v) ∈ l) :
    l.lookup t = some v := by
  induction l with
  | nil => simp at h
  | cons a l ih =>
    simp only [List.map_cons, List.nodup_cons] at hnd
    rcases List.mem_cons.mp h with h1 | h1
    · subst h1
      simp [List.lookup]
    · have hne : t ≠ a.1 := by
        intro he
        exact hnd.1 (he ▸ List.mem_map_of_mem Prod.fst h1)
      obtain ⟨k, w⟩ := a
      have hbe : (t == k) = false := beq_eq_false_iff_ne.mpr hne
      simp only [List.lookup, hbe]
      exact ih hnd.2 h1

theorem lookup_eq_none_of_not_mem {κ α : Type} [BEq κ] [LawfulBEq κ]
    {l : List (κ × α)} {t : κ}
    (h : t ∉ l.map Prod.fst) : l.lookup t = none := by
  cases hl : l.lookup t with
  | none => rfl
  | some v =>
    exact absurd ((lookup_isSome_iff l t).mp (by simp [hl])) h

/-! Lemmas about the factoring and resolution functions themselves. -/

theorem keys_global_axes (axes_defaults : Coords)
    (variants : List (String × Coords)) :
    (global_axes_of axes_defaults variants).map Prod.fst =
      axes_defaults.map Prod.fst := by
  simp [global_axes_of, Function.comp]

theorem lookup_global_axes (axes_defaults : Coords)
    (variants : List (String × Coords)) (t : Tag) :
    (global_axes_of axes_defaults variants).lookup t =
      (axes_defaults.lookup t).map fun _ => global_value variants t := by
  exact lookup_mapVal (fun k _ => global_value variants k) axes_defaults t

theorem lookup_dict_update (gaxes : GlobalAxes) (variant_config : Coords)
    (t : Tag) :
    (dict_update gaxes variant_config).lookup t =
      match gaxes.lookup t, variant_config.lookup t with
      | some _, some v => some (some v)
      | some w, none => some w
      | none, some v => some (some v)
      | none, none => none := by
  have h1 : ((gaxes.map fun kv =>
        (kv.1, merge_value variant_config kv.1 kv.2)).lookup t) =
      (gaxes.lookup t).map (merge_value variant_config t) :=
    lookup_mapVal (merge_value variant_config) gaxes t
  have h2 : (((variant_config.filter fun kv =>
        (gaxes.lookup kv.1).isNone).map fun kv => (kv.1, some kv.2)).lookup t) =
      ((variant_config.filter fun kv =>
        (gaxes.lookup kv.1).isNone).lookup t).map some :=
    lookup_mapVal (fun _ v => some v) _ t
  have h3 := lookup_filter_key (fun k => (gaxes.lookup k).isNone)
    variant_config t
  unfold dict_update
  rw [lookup_append, h1, h2, h3]
  cases hg : gaxes.lookup t with
  | none =>
    cases hv : variant_config.lookup t with
    | none => simp [merge_value]
    | some v => simp [merge_value]
  | some w =>
    cases hv : variant_config.lookup t with
    | none => simp [Option.or, merge_value, hv]
    | some v => simp [Option.or, merge_value, hv]

theorem lookup_resolved_axes_of_defined (merged : GlobalAxes)
    (font_defaults : Coords) (t : Tag) (d : Rat)
    (hd : font_defaults.lookup t = some d) :
    (resolved_axes merged font_defaults).lookup t =
      (merged.lookup t).map fun ov => ov.getD d := by
  induction merged with
  | nil => rfl
  | cons a l ih =>
    obtain ⟨k, w⟩ := a
    by_cases ht : t = k
    · subst ht
      simp only [resolved_axes, List.filterMap_cons, hd]
      cases w with
      | none => simp [List.lookup]
      | some v => simp [List.lookup]
    · have hbe : (t == k) = false := beq_eq_false_iff_ne.mpr ht
      simp only [resolved_axes, List.filterMap_cons]
      cases hdk : font_defaults.lookup k with
      | none => simpa [resolved_axes, List.lookup, hbe] using ih
      | some dk =>
        cases w with
        | none => simpa [resolved_axes, List.lookup, hbe] using ih
        | some v => simpa [resolved_axes, List.lookup, hbe] using ih

theorem mem_resolved_axes_tag (merged : GlobalAxes) (font_defaults : Coords)
    (p : Tag × Rat) (hp : p ∈ resolved_axes merged font_defaults) :
    p.1 ∈ font_defaults.map Prod.fst := by
  unfold resolved_axes at hp
  obtain ⟨kv, hkv, heq⟩ := List.mem_filterMap.mp hp
  cases hdk : font_defaults.lookup kv.1 with
  | none => rw [hdk] at heq; simp at heq
  | some d =>
    rw [hdk] at heq
    have hk : p.1 = kv.1 := by
      cases hw : kv.2 with
      | none =>
        rw [hw] at heq
        simp only [Option.some.injEq] at heq
        rw [← heq]
      | some v =>
        rw [hw] at heq
        simp only [Option.some.injEq] at heq
        rw [← heq]
    rw [hk]
    exact (lookup_isSome_iff _ _).mp (by simp [hdk])

theorem lookup_resolved_axes_of_undefined (merged : GlobalAxes)
    (font_defaults : Coords) (t : Tag)
    (hd : font_defaults.lookup t = none) :
    (resolved_axes merged font_defaults).lookup t = none := by
  cases hl : (resolved_axes merged font_defaults).lookup t with
  | none => rfl
  | some v =>
    have hmem := mem_of_lookup hl
    have hkeys := mem_resolved_axes_tag merged font_defaults (t, v) hmem
    have hs := (lookup_isSome_iff font_defaults t).mpr hkeys
    rw [hd] at hs
    simp at hs

/-! Lemmas about the minimization scan and the bit manipulations. -/

theorem ratAbs_eq_abs (q : Rat) : ratAbs q = |q| := by
  unfold ratAbs
  rcases lt_or_ge q 0 with h | h
  · rw [if_pos h, abs_of_neg h]
  · rw [if_neg (not_lt.mpr h), abs_of_nonneg h]

theorem pymin_cons (f : Rat → Rat) (a x : Rat) (xs : List Rat) :
    pymin f a (x :: xs) = pymin f (if f x < f a then x else a) xs := rfl

theorem pymin_mem (f : Rat → Rat) (a : Rat) (xs : List Rat) :
    pymin f a xs = a ∨ pymin f a xs ∈ xs := by
  induction xs generalizing a with
  | nil => left; rfl
  | cons x xs ih =>
    rw [pymin_cons]
    rcases ih (if f x < f a then x else a) with h | h
    · rw [h]
      by_cases hc : f x < f a
      · right; rw [if_pos hc]; exact List.mem_cons_self _ _
      · left; rw [if_neg hc]
    · right; exact List.mem_cons_of_mem _ h

theorem pymin_min (f : Rat → Rat) (a : Rat) (xs : List Rat) :
    f (pymin f a xs) ≤ f a ∧ ∀ y ∈ xs, f (pymin f a xs) ≤ f y := by
  induction xs generalizing a with
  | nil => exact ⟨le_refl _, by simp⟩
  | cons x xs ih =>
    rw [pymin_cons]
    obtain ⟨h1, h2⟩ := ih (if f x < f a then x else a)
    refine ⟨le_trans h1 ?_, ?_⟩
    · by_cases hc : f x < f a
      · rw [if_pos hc]; exact le_of_lt hc
      · rw [if_neg hc]
    · intro y hy
      rcases List.mem_cons.mp hy with heq | hy'
      · subst heq
        refine le_trans h1 ?_
        by_cases hc : f y < f a
        · rw [if_pos hc]
        · rw [if_neg hc]; exact le_of_not_lt hc
      · exact h2 y hy'

theorem lor_one_div_two (m : Nat) : (m ||| 1) / 2 = m / 2 := by
  apply Nat.eq_of_testBit_eq
  intro i
  rw [Nat.testBit_div_two, Nat.testBit_div_two, Nat.testBit_lor]
  have h1 : Nat.testBit 1 (i + 1) = false := by
    rw [Nat.testBit_succ]
    simp
  rw [h1, Bool.or_false]

theorem lor_one_mod_two (m : Nat) : (m ||| 1) % 2 = 1 := by
  have h : (m ||| 1).testBit 0 = true := by
    rw [Nat.testBit_lor]
    simp
  rw [Nat.testBit_zero] at h
  exact of_decide_eq_true h

theorem clearBit0_mod_two (m : Nat) : clearBit0 m % 2 = 0 := by
  simp [clearBit0, Nat.mul_mod_right]

theorem clearBit0_div_two (m : Nat) : clearBit0 m / 2 = m / 2 := by
  simp [clearBit0]

/-! Lemmas about the canonical weight table. -/

theorem foldl_min_keep (f : Rat → Rat) (best : Rat) (xs : List Rat)
    (h : ∀ y ∈ xs, ¬ f y < f best) :
    xs.foldl (fun best c => if f c < f best then c else best) best = best := by
  induction xs with
  | nil => rfl
  | cons y ys ih =>
    simp only [List.foldl_cons, if_neg (h y (List.mem_cons_self _ _))]
    exact ih fun z hz => h z (List.mem_cons_of_mem _ hz)

theorem foldl_min_reach (f : Rat → Rat) (c : Rat) (l1 l2 : List Rat)
    (h1 : ∀ y ∈ l1, f c < f y) (h2 : ∀ y ∈ l2, ¬ f y < f c) :
    ∀ best, f c < f best →
      (l1 ++ c :: l2).foldl (fun best x => if f x < f best then x else best)
        best = c := by
  induction l1 with
  | nil =>
    intro best hb
    simp only [List.nil_append, List.foldl_cons, if_pos hb]
    exact foldl_min_keep f c l2 h2
  | cons y l1 ih =>
    intro best hb
    simp only [List.cons_append, List.foldl_cons]
    by_cases hc : f y < f best
    · rw [if_pos hc]
      exact ih (fun z hz => h1 z (List.mem_cons_of_mem _ hz)) y
        (h1 y (List.mem_cons_self _ _))
    · rw [if_neg hc]
      exact ih (fun z hz => h1 z (List.mem_cons_of_mem _ hz)) best hb

theorem pymin_first_min (f : Rat → Rat) (a : Rat) (xs l1 l2 : List Rat)
    (c : Rat) (hsplit : a :: xs = l1 ++ c :: l2)
    (h1 : ∀ y ∈ l1, f c < f y) (h2 : ∀ y ∈ l2, ¬ f y < f c) :
    pymin f a xs = c := by
  cases l1 with
  | nil =>
    have h : a = c ∧ xs = l2 := by simpa using hsplit
    rw [pymin, h.1, h.2]
    exact foldl_min_keep f c l2 h2
  | cons b l1 =>
    have h : a = b ∧ xs = l1 ++ c :: l2 := by simpa using hsplit
    rw [pymin, h.1, h.2]
    exact foldl_min_reach f c l1 l2
      (fun z hz => h1 z (List.mem_cons_of_mem _ hz)) h2 b
      (h.1 ▸ h1 b (List.mem_cons_self _ _))

theorem abs_dist_lt (y c w : Rat) (h1 : y < c) (h2 : c < w) :
    |c - w| < |y - w| := by
  rw [abs_of_neg (by linarith : c - w < 0), abs_of_neg (by linarith : y - w < 0)]
  linarith

theorem keys_weight_names :
    weight_names.map Prod.fst =
      [100, 200, 300, 400, 500, 600, 700, 800, 900] := rfl

theorem lookup_weight_names_of_mem {c : Rat} {lbl : String}
    (h : (c, lbl) ∈ weight_names) : weight_names.lookup c = some lbl := by
  fin_cases h <;> rfl

theorem lookup_weight_names_of_key {c : Rat}
    (h : c ∈ weight_names.map Prod.fst) :
    ∃ lbl, weight_names.lookup c = some lbl ∧ (c, lbl) ∈ weight_names := by
  obtain ⟨p, hp, hfst⟩ := List.mem_map.mp h
  obtain ⟨k, lbl⟩ := p
  obtain rfl : k = c := hfst
  exact ⟨lbl, lookup_weight_names_of_mem hp, hp⟩


/-! Lemmas about the name-table update of the generation pipeline. -/

theorem mem_zip_map {α β : Type} (f : α → β) (l : List α) (p : α × β)
    (hp : p ∈ l.zip (l.map f)) : p.2 = f p.1 ∧ p.1 ∈ l := by
  induction l with
  | nil => simp at hp
  | cons a l ih =>
    simp only [List.map_cons, List.zip_cons_cons] at hp
    rcases List.mem_cons.mp hp with heq | hmem
    · rw [heq]
      exact ⟨rfl, List.mem_cons_self _ _⟩
    · obtain ⟨h1, h2⟩ := ih hmem
      exact ⟨h1, List.mem_cons_of_mem _ h2⟩

theorem update_record_ids (fn vn : String) (r : NameRecord) :
    (update_record fn vn r).nameID = r.nameID ∧
    (update_record fn vn r).platformID = r.platformID ∧
    (update_record fn vn r).platEncID = r.platEncID := by
  unfold update_record
  by_cases h1 : r.platformID = 3 ∧ r.platEncID = 1
  · rw [if_pos h1]
    split_ifs <;> exact ⟨rfl, rfl, rfl⟩
  · rw [if_neg h1]
    exact ⟨rfl, rfl, rfl⟩

theorem update_record_frame (fn vn : String) (r : NameRecord)
    (h : ¬(r.platformID = 3 ∧ r.platEncID = 1 ∧
        (r.nameID = 1 ∨ r.nameID = 2 ∨ r.nameID = 4 ∨ r.nameID = 6))) :
    update_record fn vn r = r := by
  unfold update_record
  by_cases h1 : r.platformID = 3 ∧ r.platEncID = 1
  · have hn1 : ¬ r.nameID = 1 := fun he => h ⟨h1.1, h1.2, Or.inl he⟩
    have hn2 : ¬ r.nameID = 2 := fun he => h ⟨h1.1, h1.2, Or.inr (Or.inl he)⟩
    have hn4 : ¬ r.nameID = 4 := fun he =>
      h ⟨h1.1, h1.2, Or.inr (Or.inr (Or.inl he))⟩
    have hn6 : ¬ r.nameID = 6 := fun he =>
      h ⟨h1.1, h1.2, Or.inr (Or.inr (Or.inr he))⟩
    rw [if_pos h1, if_neg hn1, if_neg hn2, if_neg hn4, if_neg hn6]
  · rw [if_neg h1]

theorem update_record_family (fn vn : String) (r : NameRecord)
    (h3 : r.platformID = 3) (h1 : r.platEncID = 1) (hid : r.nameID = 1) :
    (update_record fn vn r).string = fn := by
  simp [update_record, h3, h1, hid]

theorem update_record_subfamily (fn vn : String) (r : NameRecord)
    (h3 : r.platformID = 3) (h1 : r.platEncID = 1) (hid : r.nameID = 2) :
    (update_record fn vn r).string = vn := by
  simp [update_record, h3, h1, hid]

theorem update_record_full (fn vn : String) (r : NameRecord)
    (h3 : r.platformID = 3) (h1 : r.platEncID = 1) (hid : r.nameID = 4) :
    (update_record fn vn r).string =
      (if vn = "Regular" then fn else fn ++ " " ++ vn) := by
  simp [update_record, h3, h1, hid]

theorem update_record_postscript (fn vn : String) (r : NameRecord)
    (h3 : r.platformID = 3) (h1 : r.platEncID = 1) (hid : r.nameID = 6) :
    (update_record fn vn r).string = (fn.replace " " "") ++ "-" ++ vn := by
  simp [update_record, h3, h1, hid]

theorem ufn_nameRecords (font : Font) (fn vn : String) (axes : Coords) :
    (update_font_names font fn vn axes).nameRecords
      = font.nameRecords.map (update_record fn vn) := by
  simp only [update_font_names]
  split_ifs <;> rfl

theorem ufn_frame_fields (font : Font) (fn vn : String) (axes : Coords) :
    (update_font_names font fn vn axes).hasOS2 = font.hasOS2 ∧
    (update_font_names font fn vn axes).os2Rest = font.os2Rest ∧
    (update_font_names font fn vn axes).hasHead = font.hasHead ∧
    (update_font_names font fn vn axes).headRest = font.headRest ∧
    (update_font_names font fn vn axes).otherTables = font.otherTables ∧
    (update_font_names font fn vn axes).hasFvar = font.hasFvar ∧
    (update_font_names font fn vn axes).fvarAxes = font.fvarAxes ∧
    (update_font_names font fn vn axes).hasNameTable = font.hasNameTable := by
  simp only [update_font_names]
  split_ifs <;> exact ⟨rfl, rfl, rfl, rfl, rfl, rfl, rfl, rfl⟩

theorem ufn_usWeightClass (font : Font) (fn vn : String) (axes : Coords)
    (h : font.hasOS2 = true) :
    (update_font_names font fn vn axes).usWeightClass
      = truncInt ((axes.lookup "wght").getD 400) := by
  simp only [update_font_names, h, if_true]
  split_ifs <;> rfl

theorem ufn_usWeightClass_frame (font : Font) (fn vn : String) (axes : Coords)
    (h : font.hasOS2 = false) :
    (update_font_names font fn vn axes).usWeightClass
      = font.usWeightClass := by
  simp only [update_font_names, h]
  split_ifs <;> first | rfl | simp_all

theorem ufn_macStyle_bold (font : Font) (fn vn : String) (axes : Coords)
    (hh : font.hasHead = true) (hw : (axes.lookup "wght").getD 400 ≥ 700) :
    (update_font_names font fn vn axes).macStyle = font.macStyle ||| 1 := by
  simp only [update_font_names, hh, if_true]
  split_ifs <;> first | rfl | (exfalso; simp_all)

theorem ufn_macStyle_nonbold (font : Font) (fn vn : String) (axes : Coords)
    (hh : font.hasHead = true)
    (hw : ¬ (axes.lookup "wght").getD 400 ≥ 700) :
    (update_font_names font fn vn axes).macStyle
      = clearBit0 font.macStyle := by
  simp only [update_font_names, hh, if_true]
  split_ifs <;> first | rfl | (exfalso; simp_all)

theorem ufn_macStyle_frame (font : Font) (fn vn : String) (axes : Coords)
    (hh : font.hasHead = false) :
    (update_font_names font fn vn axes).macStyle = font.macStyle := by
  simp only [update_font_names, hh]
  split_ifs <;> first | rfl | simp_all


/-! Claim theorems. -/

/-- C1: building the configuration document (global-axis factoring plus
sparse per-variant overrides) and then resolving each variant against the
same axis catalog reproduces, for every axis tag the instance declared,
exactly the original coordinate value. The instance is assumed to be a
well-formed dict (no duplicate keys) over the design space of the catalog. -/
theorem c1_round_trip (font_path font_name : String) (axes_defaults : Coords)
    (variants : List (String × Coords)) (name : String) (coords : Coords)
    (hmem : (name, coords) ∈ variants)
    (hnd : (coords.map Prod.fst).Nodup)
    (hdesign : ∀ p ∈ coords, p.1 ∈ axes_defaults.map Prod.fst)
    (t : Tag) (v : Rat) (hdecl : coords.lookup t = some v) :
    (name, optimize_variant
        (create_config_structure font_path font_name axes_defaults
          variants).axes coords) ∈
      (create_config_structure font_path font_name axes_defaults
        variants).variants
    ∧ (resolve_axes
        (create_config_structure font_path font_name axes_defaults
          variants).axes
        (optimize_variant
          (create_config_structure font_path font_name axes_defaults
            variants).axes coords)
        axes_defaults).lookup t = some v := by
  simp only [create_config_structure]
  set gaxes := global_axes_of axes_defaults variants with hgdef
  constructor
  · exact List.mem_map_of_mem (fun nv => (nv.1, optimize_variant gaxes nv.2))
      hmem
  · have ht : t ∈ axes_defaults.map Prod.fst :=
      hdesign (t, v) (mem_of_lookup hdecl)
    obtain ⟨d, hd⟩ := Option.isSome_iff_exists.mp
      ((lookup_isSome_iff axes_defaults t).mpr ht)
    have hg : gaxes.lookup t = some (global_value variants t) := by
      rw [hgdef, lookup_global_axes, hd]
      rfl
    by_cases hgv : global_value variants t = some v
    · have hov : (optimize_variant gaxes coords).lookup t = none := by
        apply lookup_filter_of_false
        intro v2 hv2
        have hlk2 := lookup_of_mem_nodup hnd hv2
        rw [hdecl] at hlk2
        obtain rfl : v2 = v := by simpa using hlk2.symm
        simp [hg, hgv]
      unfold resolve_axes
      rw [lookup_resolved_axes_of_defined _ _ t d hd, lookup_dict_update, hov,
        hg, hgv]
      rfl
    · have hov : (optimize_variant gaxes coords).lookup t = some v := by
        apply lookup_filter_of_true _ _ _ _ hdecl
        simp [hg]
        exact fun h => hgv h
      unfold resolve_axes
      rw [lookup_resolved_axes_of_defined _ _ t d hd, lookup_dict_update, hov,
        hg]
      rfl

/-- C1 witness: a concrete round trip for the Bold instance of a
two-instance weight family. -/
theorem c1_round_trip_witness :
    ("Bold", optimize_variant
        (create_config_structure "font.ttf" "Fam" [("wght", 400)]
          [("Regular", [("wght", 400)]), ("Bold", [("wght", 700)])]).axes
        [("wght", 700)]) ∈
      (create_config_structure "font.ttf" "Fam" [("wght", 400)]
        [("Regular", [("wght", 400)]), ("Bold", [("wght", 700)])]).variants
    ∧ (resolve_axes
        (create_config_structure "font.ttf" "Fam" [("wght", 400)]
          [("Regular", [("wght", 400)]), ("Bold", [("wght", 700)])]).axes
        (optimize_variant
          (create_config_structure "font.ttf" "Fam" [("wght", 400)]
            [("Regular", [("wght", 400)]), ("Bold", [("wght", 700)])]).axes
          [("wght", 700)])
        [("wght", 400)]).lookup "wght" = some 700 :=
  c1_round_trip "font.ttf" "Fam" [("wght", 400)]
    [("Regular", [("wght", 400)]), ("Bold", [("wght", 700)])] "Bold"
    [("wght", 700)] (by decide) (by decide) (by decide) "wght" 700 (by decide)

/-- C2: for a well-formed global-axes mapping, one whose keys cover every
axis tag of the axis catalog as the data-model invariant requires, the
axis resolver produces a concrete numeric value for every axis tag of the
catalog; no unset value remains. -/
theorem c2_resolver_totality (gaxes : GlobalAxes) (variant_config : Coords)
    (font_defaults : Coords)
    (hwf : ∀ t ∈ font_defaults.map Prod.fst, t ∈ gaxes.map Prod.fst) :
    ∀ t ∈ font_defaults.map Prod.fst,
      ∃ v : Rat,
        (resolve_axes gaxes variant_config font_defaults).lookup t = some v := by
  intro t ht
  obtain ⟨d, hd⟩ := Option.isSome_iff_exists.mp
    ((lookup_isSome_iff font_defaults t).mpr ht)
  obtain ⟨w, hw⟩ := Option.isSome_iff_exists.mp
    ((lookup_isSome_iff gaxes t).mpr (hwf t ht))
  unfold resolve_axes
  rw [lookup_resolved_axes_of_defined _ _ t d hd, lookup_dict_update, hw]
  cases hv : variant_config.lookup t with
  | some v => exact ⟨v, rfl⟩
  | none => exact ⟨w.getD d, rfl⟩

/-- C2 witness: an unset global weight resolves to the font default. -/
theorem c2_resolver_totality_witness :
    ∃ v : Rat,
      (resolve_axes [("wght", none)] [] [("wght", 400)]).lookup "wght"
        = some v :=
  c2_resolver_totality [("wght", none)] [] [("wght", 400)] (by decide)
    "wght" (by decide)

/-- C3: resolution precedence. For an axis the font defines, the override
value wins when present; else a set global scalar; else the font default
replaces the unset marker. An axis tag the font does not define is dropped
from the result entirely, and the concrete scenario override wght 650
against unset global and default 400 resolves to 650. -/
theorem c3_resolution_precedence (gaxes : GlobalAxes) (variant_config : Coords)
    (font_defaults : Coords) (t : Tag) :
    ((∀ v d, variant_config.lookup t = some v →
        font_defaults.lookup t = some d →
        (resolve_axes gaxes variant_config font_defaults).lookup t = some v)
    ∧ (∀ w d, variant_config.lookup t = none →
        gaxes.lookup t = some (some w) →
        font_defaults.lookup t = some d →
        (resolve_axes gaxes variant_config font_defaults).lookup t = some w)
    ∧ (∀ d, variant_config.lookup t = none →
        gaxes.lookup t = some none →
        font_defaults.lookup t = some d →
        (resolve_axes gaxes variant_config font_defaults).lookup t = some d)
    ∧ (t ∉ font_defaults.map Prod.fst →
        (resolve_axes gaxes variant_config font_defaults).lookup t = none)
    ∧ (∀ p ∈ resolve_axes gaxes variant_config font_defaults,
        p.1 ∈ font_defaults.map Prod.fst))
    ∧ (resolve_axes [("wght", none)] [("wght", 650)]
        [("wght", 400)]).lookup "wght" = some 650 := by
  refine ⟨⟨?_, ?_, ?_, ?_, ?_⟩, by decide⟩
  · intro v d hv hd
    unfold resolve_axes
    rw [lookup_resolved_axes_of_defined _ _ t d hd, lookup_dict_update, hv]
    cases hg : gaxes.lookup t with
    | some w => rfl
    | none => rfl
  · intro w d hv hg hd
    unfold resolve_axes
    rw [lookup_resolved_axes_of_defined _ _ t d hd, lookup_dict_update, hv, hg]
    rfl
  · intro d hv hg hd
    unfold resolve_axes
    rw [lookup_resolved_axes_of_defined _ _ t d hd, lookup_dict_update, hv, hg]
    rfl
  · intro hnot
    exact lookup_resolved_axes_of_undefined _ _ t
      (lookup_eq_none_of_not_mem hnot)
  · intro p hp
    exact mem_resolved_axes_tag _ _ p hp

/-- C3 witness: an override beats a set global scalar. -/
theorem c3_resolution_precedence_witness :
    (resolve_axes [("wght", some 300)] [("wght", 650)]
      [("wght", 400)]).lookup "wght" = some 650 :=
  (c3_resolution_precedence [("wght", some 300)] [("wght", 650)]
    [("wght", 400)] "wght").1.1 650 400 (by decide) (by decide)

/-- C4: factoring correctness. For an axis tag of the catalog: when at
least one instance declares it and every declaring instance agrees, the
global mapping holds that scalar and no variant override carries the tag;
when no instance declares it or two declared values disagree, the global
mapping holds the unset marker. The key list of the global mapping is the
key list of the catalog, so with a duplicate-free catalog every tag
appears exactly once. -/
theorem c4_factoring_correctness (axes_defaults : Coords)
    (variants : List (String × Coords))
    (hnd : (axes_defaults.map Prod.fst).Nodup)
    (hvnd : ∀ nv ∈ variants, ((nv.2 : Coords).map Prod.fst).Nodup)
    (t : Tag) (ht : t ∈ axes_defaults.map Prod.fst) :
    (∀ v : Rat, axis_values variants t ≠ [] →
        (∀ x ∈ axis_values variants t, x = v) →
        (global_axes_of axes_defaults variants).lookup t = some (some v) ∧
        ∀ nv ∈ variants,
          (optimize_variant (global_axes_of axes_defaults variants)
            nv.2).lookup t = none)
    ∧ ((axis_values variants t = [] ∨
        ∃ x ∈ axis_values variants t, ∃ y ∈ axis_values variants t, x ≠ y) →
        (global_axes_of axes_defaults variants).lookup t = some none)
    ∧ (global_axes_of axes_defaults variants).map Prod.fst
        = axes_defaults.map Prod.fst
    ∧ List.count t ((global_axes_of axes_defaults variants).map Prod.fst)
        = 1 := by
  obtain ⟨d, hd⟩ := Option.isSome_iff_exists.mp
    ((lookup_isSome_iff axes_defaults t).mpr ht)
  have hg : (global_axes_of axes_defaults variants).lookup t
      = some (global_value variants t) := by
    rw [lookup_global_axes, hd]
    rfl
  refine ⟨?_, ?_, keys_global_axes _ _, ?_⟩
  · intro v hne hall
    have hgv : global_value variants t = some v := by
      unfold global_value
      cases hav : axis_values variants t with
      | nil => exact absurd hav hne
      | cons x rest =>
        have hx : x = v := hall x (hav ▸ List.mem_cons_self _ _)
        have hcond : ((x :: rest).all fun y => y == x) = true := by
          rw [List.all_eq_true]
          intro y hy
          have hyv : y = v := hall y (hav ▸ hy)
          rw [hyv, hx]
          exact beq_self_eq_true v
        show (if ((x :: rest).all fun y => y == x) = true then some x
            else none) = some v
        rw [hcond, hx]
        simp
    refine ⟨by rw [hg, hgv], ?_⟩
    intro nv hnv
    apply lookup_filter_of_false
    intro v2 hv2
    have hlk2 := lookup_of_mem_nodup (hvnd nv hnv) hv2
    have hv2mem : v2 ∈ axis_values variants t :=
      List.mem_filterMap.mpr ⟨nv, hnv, hlk2⟩
    obtain rfl : v2 = v := hall v2 hv2mem
    simp [hg, hgv]
  · intro hdis
    have hgv : global_value variants t = none := by
      unfold global_value
      cases hav : axis_values variants t with
      | nil => rfl
      | cons x rest =>
        rcases hdis with he | ⟨a, ha, b, hb, hab⟩
        · rw [hav] at he
          exact absurd he (List.cons_ne_nil x rest)
        · have hcond : ((x :: rest).all fun y => y == x) = false := by
            by_contra hcon
            have hcond2 : ((x :: rest).all fun y => y == x) = true := by
              revert hcon
              cases (x :: rest).all fun y => y == x
              · intro hc
                exact absurd rfl hc
              · intro _
                rfl
            rw [List.all_eq_true] at hcond2
            have hax : a = x := eq_of_beq (hcond2 a (hav ▸ ha))
            have hbx : b = x := eq_of_beq (hcond2 b (hav ▸ hb))
            exact hab (hax.trans hbx.symm)
          show (if ((x :: rest).all fun y => y == x) = true then some x
              else none) = none
          rw [hcond]
          simp
    rw [hg, hgv]
  · rw [keys_global_axes]
    exact List.count_eq_one_of_mem hnd ht

/-- C4 witness: a width axis all instances agree on is hoisted into the
global mapping and removed from every override. -/
theorem c4_factoring_correctness_witness :
    (global_axes_of [("wght", 400), ("wdth", 100)]
      [("A", [("wght", 400), ("wdth", 100)]),
       ("B", [("wght", 700), ("wdth", 100)])]).lookup "wdth"
        = some (some 100) ∧
    ∀ nv ∈ [("A", [("wght", (400 : Rat)), ("wdth", 100)]),
       ("B", [("wght", 700), ("wdth", 100)])],
      (optimize_variant
        (global_axes_of [("wght", 400), ("wdth", 100)]
          [("A", [("wght", 400), ("wdth", 100)]),
           ("B", [("wght", 700), ("wdth", 100)])]) nv.2).lookup "wdth"
        = none :=
  (c4_factoring_correctness [("wght", 400), ("wdth", 100)]
    [("A", [("wght", 400), ("wdth", 100)]),
     ("B", [("wght", 700), ("wdth", 100)])] (by decide) (by decide)
    "wdth" (by decide)).1 100 (by decide) (by decide)


/-- C5: the weight-name resolver. An exact canonical weight yields its
label; otherwise the name is the label of a canonical weight at minimal
absolute distance followed by the toward-zero-truncated integer value;
without a wght coordinate the name is Instance followed by the 1-based
index (the 0-based enumeration index plus one). -/
theorem c5_weight_name_resolver (coordinates : Coords) (i : Nat) :
    (∀ w lbl, coordinates.lookup "wght" = some w → (w, lbl) ∈ weight_names →
        instance_name coordinates i = lbl)
    ∧ (∀ w, coordinates.lookup "wght" = some w →
        weight_names.lookup w = none →
        ∃ c lbl, (c, lbl) ∈ weight_names ∧
          (∀ c2 ∈ weight_names.map Prod.fst, |c - w| ≤ |c2 - w|) ∧
          instance_name coordinates i = lbl ++ toString (truncInt w))
    ∧ (coordinates.lookup "wght" = none →
        instance_name coordinates i = "Instance" ++ toString (i + 1)) := by
  refine ⟨?_, ?_, ?_⟩
  · intro w lbl hw hmem
    simp only [instance_name, hw, lookup_weight_names_of_mem hmem]
  · intro w hw hnone
    have hcmem : pymin (fun x => ratAbs (x - w)) 100
        [200, 300, 400, 500, 600, 700, 800, 900]
          ∈ weight_names.map Prod.fst := by
      rw [keys_weight_names]
      rcases pymin_mem (fun x => ratAbs (x - w)) 100
          [200, 300, 400, 500, 600, 700, 800, 900] with h | h
      · rw [h]
        exact List.mem_cons_self _ _
      · exact List.mem_cons_of_mem _ h
    obtain ⟨lbl, hlk, hmem⟩ := lookup_weight_names_of_key hcmem
    refine ⟨pymin (fun x => ratAbs (x - w)) 100
      [200, 300, 400, 500, 600, 700, 800, 900], lbl, hmem, ?_, ?_⟩
    · intro c2 hc2
      obtain ⟨h1, h2⟩ := pymin_min (fun x => ratAbs (x - w)) 100
        [200, 300, 400, 500, 600, 700, 800, 900]
      rw [keys_weight_names] at hc2
      rw [← ratAbs_eq_abs, ← ratAbs_eq_abs]
      rcases List.mem_cons.mp hc2 with heq | hrest
      · rw [heq]
        exact h1
      · exact h2 c2 hrest
    · simp only [instance_name, hw, hnone]
      rw [hlk]
      rfl
  · intro hnone
    simp only [instance_name, hnone]

/-- C5 witness: the exact canonical weight 400 yields the label Regular. -/
theorem c5_weight_name_resolver_witness :
    instance_name [("wght", 400)] 0 = "Regular" :=
  (c5_weight_name_resolver [("wght", 400)] 0).1 400 "Regular" (by decide)
    (by decide)

/-- C6: nearest-weight tie-break. When a wght coordinate is exactly
equidistant from two canonical weights and that distance is minimal over
the canonical table, the resolver produces the label of the lower of the
two, because the minimization scans the canonical values in ascending
order and keeps the first minimizer. -/
theorem c6_nearest_weight_tie_break (coordinates : Coords) (i : Nat)
    (w c1 c2 : Rat)
    (hlk : coordinates.lookup "wght" = some w)
    (hc1 : c1 ∈ weight_names.map Prod.fst)
    (hc2 : c2 ∈ weight_names.map Prod.fst)
    (hlt : c1 < c2)
    (heq : |c1 - w| = |c2 - w|)
    (hmin : ∀ c ∈ weight_names.map Prod.fst, |c1 - w| ≤ |c - w|) :
    instance_name coordinates i =
      (weight_names.lookup c1).getD "" ++ toString (truncInt w) := by
  have hw : w = (c1 + c2) / 2 := by
    rcases abs_eq_abs.mp heq with h | h
    · exact absurd (by linarith : c1 = c2) (ne_of_lt hlt)
    · linarith
  have hcw : c1 < w := by
    rw [hw]
    linarith
  have hnone : weight_names.lookup w = none := by
    apply lookup_eq_none_of_not_mem
    intro hmem
    have h0 := hmin w hmem
    rw [sub_self, abs_zero] at h0
    have h1 : |c1 - w| = 0 := le_antisymm h0 (abs_nonneg _)
    have h2 : |c2 - w| = 0 := heq ▸ h1
    have e1 : c1 = w := by
      have := abs_eq_zero.mp h1
      linarith [sub_eq_zero.mp this]
    have e2 : c2 = w := by
      have := abs_eq_zero.mp h2
      linarith [sub_eq_zero.mp this]
    exact absurd (e1.trans e2.symm) (ne_of_lt hlt)
  have H1 : ∀ (l : List Rat) (c : Rat), c < w → (∀ y ∈ l, y < c) →
      ∀ y ∈ l, ratAbs (c - w) < ratAbs (y - w) := by
    intro l c hcw2 hlt2 y hy
    rw [ratAbs_eq_abs, ratAbs_eq_abs]
    exact abs_dist_lt y c w (hlt2 y hy) hcw2
  have H2 : ∀ y, y ∈ weight_names.map Prod.fst →
      ¬ ratAbs (y - w) < ratAbs (c1 - w) := by
    intro y hym
    rw [not_lt, ratAbs_eq_abs, ratAbs_eq_abs]
    exact hmin y hym
  simp only [instance_name, hlk, hnone]
  suffices hpy : pymin (fun x => ratAbs (x - w)) 100
      [200, 300, 400, 500, 600, 700, 800, 900] = c1 by rw [hpy]
  rw [keys_weight_names] at hc1
  simp only [List.mem_cons, List.not_mem_nil, or_false] at hc1
  rcases hc1 with rfl | rfl | rfl | rfl | rfl | rfl | rfl | rfl | rfl
  · exact pymin_first_min _ _ _ []
      [200, 300, 400, 500, 600, 700, 800, 900] _ rfl
      (by intro y hy; simp at hy)
      (fun y hy => H2 y (by rw [keys_weight_names]; fin_cases hy <;> decide))
  · exact pymin_first_min _ _ _ [100]
      [300, 400, 500, 600, 700, 800, 900] _ rfl
      (H1 _ _ hcw (by intro y hy; fin_cases hy <;> norm_num))
      (fun y hy => H2 y (by rw [keys_weight_names]; fin_cases hy <;> decide))
  · exact pymin_first_min _ _ _ [100, 200]
      [400, 500, 600, 700, 800, 900] _ rfl
      (H1 _ _ hcw (by intro y hy; fin_cases hy <;> norm_num))
      (fun y hy => H2 y (by rw [keys_weight_names]; fin_cases hy <;> decide))
  · exact pymin_first_min _ _ _ [100, 200, 300]
      [500, 600, 700, 800, 900] _ rfl
      (H1 _ _ hcw (by intro y hy; fin_cases hy <;> norm_num))
      (fun y hy => H2 y (by rw [keys_weight_names]; fin_cases hy <;> decide))
  · exact pymin_first_min _ _ _ [100, 200, 300, 400]
      [600, 700, 800, 900] _ rfl
      (H1 _ _ hcw (by intro y hy; fin_cases hy <;> norm_num))
      (fun y hy => H2 y (by rw [keys_weight_names]; fin_cases hy <;> decide))
  · exact pymin_first_min _ _ _ [100, 200, 300, 400, 500]
      [700, 800, 900] _ rfl
      (H1 _ _ hcw (by intro y hy; fin_cases hy <;> norm_num))
      (fun y hy => H2 y (by rw [keys_weight_names]; fin_cases hy <;> decide))
  · exact pymin_first_min _ _ _ [100, 200, 300, 400, 500, 600]
      [800, 900] _ rfl
      (H1 _ _ hcw (by intro y hy; fin_cases hy <;> norm_num))
      (fun y hy => H2 y (by rw [keys_weight_names]; fin_cases hy <;> decide))
  · exact pymin_first_min _ _ _ [100, 200, 300, 400, 500, 600, 700]
      [900] _ rfl
      (H1 _ _ hcw (by intro y hy; fin_cases hy <;> norm_num))
      (fun y hy => H2 y (by rw [keys_weight_names]; fin_cases hy <;> decide))
  · exact pymin_first_min _ _ _ [100, 200, 300, 400, 500, 600, 700, 800]
      [] _ rfl
      (H1 _ _ hcw (by intro y hy; fin_cases hy <;> norm_num))
      (by intro y hy; simp at hy)

/-- C6 witness: 150 is equidistant from 100 and 200 and resolves with the
label of 100. -/
theorem c6_nearest_weight_tie_break_witness :
    instance_name [("wght", 150)] 0 =
      (weight_names.lookup 100).getD "" ++ toString (truncInt 150) :=
  c6_nearest_weight_tie_break [("wght", 150)] 0 150 100 200 (by decide)
    (by decide) (by decide) (by norm_num) (by norm_num)
    (by intro c hc; fin_cases hc <;> norm_num)


/-- C7: the naming deriver. After the update, a Windows name record that
held nameID 2 carries the variant name, nameID 4 carries the family name
alone exactly when the variant name is Regular and otherwise family,
space, variant, and nameID 6 carries the family name with spaces stripped,
a hyphen and the variant name. The OS/2 weight class is the truncated
wght value, 400 when the resolved axes have no wght entry, and bit 0 of
head.macStyle is set exactly when the weight is at least 700. -/
theorem c7_naming_deriver (font : Font) (font_name variant_name : String)
    (axes : Coords) :
    (∀ p ∈ font.nameRecords.zip
        (update_font_names font font_name variant_name axes).nameRecords,
      p.1.platformID = 3 → p.1.platEncID = 1 →
        (p.1.nameID = 2 → p.2.string = variant_name) ∧
        (p.1.nameID = 4 → p.2.string =
          (if variant_name = "Regular" then font_name
           else font_name ++ " " ++ variant_name)) ∧
        (p.1.nameID = 6 → p.2.string =
          (font_name.replace " " "") ++ "-" ++ variant_name))
    ∧ (font.hasOS2 = true →
        (update_font_names font font_name variant_name axes).usWeightClass
          = truncInt ((axes.lookup "wght").getD 400))
    ∧ (axes.lookup "wght" = none → font.hasOS2 = true →
        (update_font_names font font_name variant_name axes).usWeightClass
          = 400)
    ∧ (font.hasHead = true →
        ((update_font_names font font_name variant_name axes).macStyle % 2
            = 1 ↔ (axes.lookup "wght").getD 400 ≥ 700)) := by
  refine ⟨?_, ufn_usWeightClass font font_name variant_name axes, ?_, ?_⟩
  · intro p hp h3 h1
    rw [ufn_nameRecords] at hp
    obtain ⟨hps, _⟩ := mem_zip_map (update_record font_name variant_name)
      font.nameRecords p hp
    rw [hps]
    exact ⟨update_record_subfamily font_name variant_name p.1 h3 h1,
      update_record_full font_name variant_name p.1 h3 h1,
      update_record_postscript font_name variant_name p.1 h3 h1⟩
  · intro hn hos
    rw [ufn_usWeightClass font font_name variant_name axes hos, hn]
    rfl
  · intro hh
    by_cases hw : (axes.lookup "wght").getD 400 ≥ 700
    · rw [ufn_macStyle_bold font font_name variant_name axes hh hw,
        lor_one_mod_two]
      simp [hw]
    · rw [ufn_macStyle_nonbold font font_name variant_name axes hh hw,
        clearBit0_mod_two]
      simp [hw]

/-- C7 witness: updating the sample font for the Bold variant writes the
truncated weight 700 into the OS/2 weight class. -/
theorem c7_naming_deriver_witness :
    (update_font_names sampleFont "My Font" "Bold"
      [("wght", 700)]).usWeightClass = 700 := by
  have h := (c7_naming_deriver sampleFont "My Font" "Bold"
    [("wght", 700)]).2.1 rfl
  rw [h]
  decide

/-- C10: frame property of the naming update. The record list keeps its
length; every record keeps its three identifiers; a record outside
platform 3, encoding 1, nameID 1, 2, 4 or 6 is unchanged; the OS/2 weight
class is untouched when the OS/2 table is absent; head.macStyle changes at
most in bit 0 and is untouched when the head table is absent; and every
other modelled field of the font is unchanged. -/
theorem c10_naming_frame (font : Font) (fn vn : String) (axes : Coords) :
    ((update_font_names font fn vn axes).nameRecords.length
      = font.nameRecords.length)
    ∧ (∀ p ∈ font.nameRecords.zip
        (update_font_names font fn vn axes).nameRecords,
        (p.2.nameID = p.1.nameID ∧ p.2.platformID = p.1.platformID ∧
          p.2.platEncID = p.1.platEncID)
        ∧ (¬(p.1.platformID = 3 ∧ p.1.platEncID = 1 ∧
            (p.1.nameID = 1 ∨ p.1.nameID = 2 ∨ p.1.nameID = 4 ∨
             p.1.nameID = 6)) → p.2 = p.1))
    ∧ (update_font_names font fn vn axes).hasOS2 = font.hasOS2
    ∧ (update_font_names font fn vn axes).os2Rest = font.os2Rest
    ∧ (font.hasOS2 = false →
        (update_font_names font fn vn axes).usWeightClass
          = font.usWeightClass)
    ∧ (update_font_names font fn vn axes).hasHead = font.hasHead
    ∧ (update_font_names font fn vn axes).headRest = font.headRest
    ∧ (font.hasHead = true →
        (update_font_names font fn vn axes).macStyle / 2
          = font.macStyle / 2)
    ∧ (font.hasHead = false →
        (update_font_names font fn vn axes).macStyle = font.macStyle)
    ∧ (update_font_names font fn vn axes).otherTables = font.otherTables
    ∧ (update_font_names font fn vn axes).hasFvar = font.hasFvar
    ∧ (update_font_names font fn vn axes).fvarAxes = font.fvarAxes
    ∧ (update_font_names font fn vn axes).hasNameTable
        = font.hasNameTable := by
  obtain ⟨hOS2, hos2r, hhead, hheadr, hother, hfv, hfva, hnt⟩ :=
    ufn_frame_fields font fn vn axes
  refine ⟨?_, ?_, hOS2, hos2r, ufn_usWeightClass_frame font fn vn axes,
    hhead, hheadr, ?_, ufn_macStyle_frame font fn vn axes, hother, hfv,
    hfva, hnt⟩
  · rw [ufn_nameRecords]
    exact List.length_map _ _
  · intro p hp
    rw [ufn_nameRecords] at hp
    obtain ⟨hps, _⟩ := mem_zip_map (update_record fn vn) font.nameRecords p hp
    constructor
    · rw [hps]
      exact update_record_ids fn vn p.1
    · intro hnot
      rw [hps]
      exact update_record_frame fn vn p.1 hnot
  · intro hh
    by_cases hw : (axes.lookup "wght").getD 400 ≥ 700
    · rw [ufn_macStyle_bold font fn vn axes hh hw]
      exact lor_one_div_two _
    · rw [ufn_macStyle_nonbold font fn vn axes hh hw]
      exact clearBit0_div_two _

/-- C10 witness: with no OS/2 and no head table, the weight class and
macStyle of the nameless font are untouched by the update. -/
theorem c10_naming_frame_witness :
    (update_font_names namelessFont "Fam" "Bold" []).usWeightClass = 400 :=
  (c10_naming_frame namelessFont "Fam" "Bold" []).2.2.2.2.1 rfl


theorem run_variants_eq_countP
    (instantiateFn : String → Coords → Except String Font)
    (saveFn : String → Font → Except String Unit) (font_name : String)
    (gaxes : GlobalAxes) (font_defaults : Coords)
    (variants : List (String × Coords)) :
    run_variants instantiateFn saveFn font_name gaxes font_defaults variants
      = .ok (variants.countP fun v =>
          generate_variant (instantiateFn v.1) (saveFn v.1) font_name v.1
            v.2 gaxes font_defaults) := by
  induction variants with
  | nil => rfl
  | cons v rest ih =>
    obtain ⟨vn, vc⟩ := v
    simp only [run_variants, ih, List.countP_cons]
    cases hgv : generate_variant (instantiateFn vn) (saveFn vn) font_name vn
        vc gaxes font_defaults with
    | true => simp [Except.bind, Nat.add_comm]
    | false => simp [Except.bind]

theorem generate_variant_false_of_error
    (instantiateFn : Coords → Except String Font)
    (saveFn : Font → Except String Unit) (font_name variant_name : String)
    (variant_config : Coords) (gaxes : GlobalAxes) (font_defaults : Coords)
    (h : ∃ e, instantiateFn (resolve_axes gaxes variant_config font_defaults)
        = .error e) :
    generate_variant instantiateFn saveFn font_name variant_name
      variant_config gaxes font_defaults = false := by
  obtain ⟨e, he⟩ := h
  simp [generate_variant, generate_variant_body, he, Bind.bind, Except.bind]

/-- C8: fault isolation in the generation driver. For any behavior of the
external instantiation and save capabilities, the per-variant loop never
propagates an exception: it returns a success count over the total variant
count, the count being exactly the number of variants whose generation
succeeded. In particular, when instantiation fails for every variant the
driver still returns normally with zero successes. -/
theorem c8_fault_isolation
    (instantiateFn : String → Coords → Except String Font)
    (saveFn : String → Font → Except String Unit) (font_name : String)
    (gaxes : GlobalAxes) (font_defaults : Coords)
    (variants : List (String × Coords)) :
    generate_from_config_summary instantiateFn saveFn font_name gaxes
        font_defaults variants
      = .ok (variants.countP fun v =>
          generate_variant (instantiateFn v.1) (saveFn v.1) font_name v.1
            v.2 gaxes font_defaults, variants.length)
    ∧ ((∀ vn vc, (vn, vc) ∈ variants → ∀ raxes,
          ∃ e, instantiateFn vn raxes = .error e) →
        generate_from_config_summary instantiateFn saveFn font_name gaxes
          font_defaults variants = .ok (0, variants.length)) := by
  have hrun := run_variants_eq_countP instantiateFn saveFn font_name gaxes
    font_defaults variants
  constructor
  · simp [generate_from_config_summary, hrun, Except.bind]
  · intro hfail
    have hzero : (variants.countP fun v =>
        generate_variant (instantiateFn v.1) (saveFn v.1) font_name v.1
          v.2 gaxes font_defaults) = 0 := by
      rw [List.countP_eq_zero]
      intro v hv
      rw [generate_variant_false_of_error (instantiateFn v.1) (saveFn v.1)
        font_name v.1 v.2 gaxes font_defaults
        (hfail v.1 v.2 hv (resolve_axes gaxes v.2 font_defaults))]
      exact Bool.false_ne_true
    simp [generate_from_config_summary, hrun, hzero, Except.bind]

/-- C8 witness: a one-variant run whose instantiation always fails still
returns a summary of zero successes out of one. -/
theorem c8_fault_isolation_witness :
    generate_from_config_summary (fun _ _ => .error "boom")
      (fun _ _ => .ok ()) "Fam" [("wght", none)] [("wght", 400)]
      [("Bold", [("wght", 700)])] = .ok (0, 1) :=
  (c8_fault_isolation (fun _ _ => .error "boom") (fun _ _ => .ok ()) "Fam"
    [("wght", none)] [("wght", 400)] [("Bold", [("wght", 700)])]).2
    (fun _ _ _ _ => ⟨"boom", rfl⟩)

/-- C9 counterexample: a font with no usable family-name record does not
make the synthesis pipeline fail; `dump_config.extract_font_info` falls
back to the font file path stem, producing a family name by other means.
Only the resolution pipeline raises the missing-family-name error. -/
theorem c9_counterexample :
    dump_font_name namelessFont.nameRecords "MyFont" = "MyFont"
    ∧ extract_font_info_gen namelessFont
        = .error "Could not extract font family name from font file" :=
  ⟨rfl, rfl⟩

/-- C9 amended: in the resolution pipeline a variable font with a name
table but no Windows family-name record fails introspection with the
missing-family-name error; in the synthesis pipeline the extraction
instead falls back to the font file path stem. -/
theorem c9_missing_family_name (font : Font)
    (hf : font.hasFvar = true) (hn : font.hasNameTable = true)
    (hnone : (font.nameRecords.find? fun r =>
        r.nameID == 1 && r.platformID == 3 && r.platEncID == 1) = none)
    (records : List NameRecord) (stem : String)
    (hnone2 : findFamilyName records = none) :
    extract_font_info_gen font
        = .error "Could not extract font family name from font file"
    ∧ dump_font_name records stem = stem := by
  constructor
  · simp [extract_font_info_gen, hf, hn, hnone]
  · simp only [dump_font_name, hnone2]

/-- C9 witness: the concrete nameless font fails resolution-side
introspection while the dump side returns the stem. -/
theorem c9_missing_family_name_witness :
    extract_font_info_gen namelessFont
        = .error "Could not extract font family name from font file"
    ∧ dump_font_name [] "Foo" = "Foo" :=
  c9_missing_family_name namelessFont rfl rfl (by decide) [] "Foo" rfl

end Var2Stat
